import Mathlib

/-!
Verification of the core of `smithy`, a small Git web server.

The development shallowly embeds the program's data model and operations:

* reference listing and sorting (`ReferenceCollector`, `ListBranches`),
* default-branch detection (`findMainBranch`),
* first-parent diffing (`GetChanges`),
* the mailbox patch envelope produced by `PatchView`,
* the repository registry and its reload (`LoadAllRepositories`, `FindRepo`),
* the Smart HTTP bridge (`WriteGitToHttp`, `getInfoRefs`, `uploadPack`,
  `receivePack`) and its pkt-line advertisement preamble,
* the commit-log page loop of `LogView`.

Strings are modelled by Lean `String` (a wrapper around `List Char`); the
Go code compares strings byte by byte, which we model by comparing
character code points (the repository only ever compares ASCII names).
Fallible operations return explicit error values; Go `log.Fatal` (which
terminates the whole serving process) and nil-pointer dereferences (which
panic) are modelled as distinguished outcome constructors.
-/

namespace Smithy

/-- Lexicographic comparison of character lists, modelling Go's byte-wise
`strings.Compare(a, b) <= 0`. -/
def lexLe : List Char → List Char → Bool
  | [], _ => true
  | _ :: _, [] => false
  | a :: as, b :: bs =>
    if a.toNat < b.toNat then true
    else if b.toNat < a.toNat then false
    else lexLe as bs

/-- String comparison used by the `sort.Sort` comparators
(`RepositoryByName.Less`, `ReferenceByName.Less`), which call
`strings.Compare` on the names. -/
def strLe (s t : String) : Bool := lexLe s.data t.data

/-- Totality of the byte-wise comparison. -/
theorem lexLe_total : ∀ a b : List Char, lexLe a b = true ∨ lexLe b a = true := by
  intro a
  induction a with
  | nil => intro b; left; rfl
  | cons x xs ih =>
    intro b
    cases b with
    | nil => right; rfl
    | cons y ys =>
      simp only [lexLe]
      rcases Nat.lt_trichotomy x.toNat y.toNat with h | h | h
      · left; simp [h]
      · have hxy : ¬ x.toNat < y.toNat := by omega
        have hyx : ¬ y.toNat < x.toNat := by omega
        rcases ih ys with h2 | h2
        · left; simp [hxy, hyx, h2]
        · right; simp [hxy, hyx, h2]
      · right; simp [h]

/-- Transitivity of the byte-wise comparison. -/
theorem lexLe_trans : ∀ a b c : List Char,
    lexLe a b = true → lexLe b c = true → lexLe a c = true := by
  intro a
  induction a with
  | nil => intro b c _ _; rfl
  | cons x xs ih =>
    intro b c hab hbc
    match b, c with
    | [], _ => exact absurd hab (by simp [lexLe])
    | _ :: _, [] => exact absurd hbc (by simp [lexLe])
    | y :: ys, z :: zs =>
      simp only [lexLe] at hab hbc ⊢
      rcases Nat.lt_trichotomy x.toNat y.toNat with h1 | h1 | h1
      · rcases Nat.lt_trichotomy y.toNat z.toNat with h2 | h2 | h2
        · simp [Nat.lt_trans h1 h2]
        · simp [show x.toNat < z.toNat by omega]
        · simp [Nat.lt_asymm h2, h2] at hbc
      · have hxy1 : ¬ x.toNat < y.toNat := by omega
        have hxy2 : ¬ y.toNat < x.toNat := by omega
        simp [hxy1, hxy2] at hab
        rcases Nat.lt_trichotomy y.toNat z.toNat with h2 | h2 | h2
        · simp [show x.toNat < z.toNat by omega]
        · have h3 : ¬ y.toNat < z.toNat := by omega
          have h4 : ¬ z.toNat < y.toNat := by omega
          simp [h3, h4] at hbc
          simp [show ¬ x.toNat < z.toNat by omega, show ¬ z.toNat < x.toNat by omega]
          exact ih ys zs hab hbc
        · simp [Nat.lt_asymm h2, h2] at hbc
      · simp [Nat.lt_asymm h1, h1] at hab

/-- The order on full reference names used by `ReferenceByName.Less`. -/
def refLe (a b : String) : Prop := strLe a b = true

instance : DecidableRel refLe := fun a b =>
  inferInstanceAs (Decidable (strLe a b = true))

instance : IsTotal String refLe := ⟨fun a b => lexLe_total a.data b.data⟩

instance : IsTrans String refLe :=
  ⟨fun a b c hab hbc => lexLe_trans a.data b.data c.data hab hbc⟩

/-- Full reference name of a branch given its short name: branch references
live under the `refs/heads/` namespace (go-git `Name().Short()` strips that
namespace; the sort comparator sees the full `Name().String()`). -/
def fullName (short : String) : String := "refs/heads/" ++ short

/-- The order `ReferenceByName.Less` induces on branches represented by
their short names: compare the full `refs/heads/...` names. -/
def branchRefLe (a b : String) : Prop := strLe (fullName a) (fullName b) = true

instance : DecidableRel branchRefLe := fun a b =>
  inferInstanceAs (Decidable (strLe (fullName a) (fullName b) = true))

instance : IsTotal String branchRefLe :=
  ⟨fun a b => lexLe_total (fullName a).data (fullName b).data⟩

instance : IsTrans String branchRefLe :=
  ⟨fun a b c hab hbc => lexLe_trans (fullName a).data (fullName b).data (fullName c).data hab hbc⟩

/-- The sort performed by `sort.Sort(ReferenceByName(refs))` on full
reference names. -/
def sortRefs (l : List String) : List String := List.insertionSort refLe l

/-- The same sort acting on branches represented by their short names. -/
def sortBranchRefs (l : List String) : List String := List.insertionSort branchRefLe l

/-- Outcome of running a go-git reference iterator to the end: the
references produced, in iteration order, and `none` when iteration ended
with `io.EOF` or `some e` when `Next` returned another error `e`. -/
structure IterOutcome where
  produced : List String
  failure : Option String
  deriving DecidableEq

/-- Model of `ReferenceCollector`: drain the iterator; on `io.EOF` sort the
collected references by full name and return them with no error; when
`Next` fails with any other error, return the references collected so far
(the `sort.Sort` call is not reached, so they stay in iteration order)
together with the error. -/
def ReferenceCollector (it : IterOutcome) : List String × Option String :=
  match it.failure with
  | some e => (it.produced, some e)
  | none => (sortRefs it.produced, none)

/-- Model of `ListBranches`: `r.Branches()` may itself fail, in which case
an empty list is returned with the error; otherwise the iterator is drained
by `ReferenceCollector`. -/
def ListBranches (r : Except String IterOutcome) : List String × Option String :=
  match r with
  | .error e => ([], some e)
  | .ok it => ReferenceCollector it

/-- The test applied to each branch by the loop in `findMainBranch`:
`br.Name().Short() == "main" || br.Name().Short() == "master"`. -/
def mainOrMaster (br : String) : Bool := br == "main" || br == "master"

/-- Model of `findMainBranch`, restricted to branch selection on a
successfully iterated branch list (`findMainBranch` discards the error of
`ListBranches` with `branches, _ :=`). Input: the branch short names in
iteration order. The code sorts them by full name (inside `ListBranches`),
fails when none exist, then takes the first branch short-named `main` or
`master` (the loop with `break`, modelled by `find?`), falling back to
`branches[0]` of the sorted list. -/
def findMainBranch (branches : List String) : Except String String :=
  let bs := sortBranchRefs branches
  if bs.isEmpty then .error "no branches found"
  else
    match bs.find? mainOrMaster with
    | some b => .ok b
    | none => .ok (bs.headD "")

/-- Reflexivity of the byte-wise comparison. -/
theorem lexLe_refl : ∀ a : List Char, lexLe a a = true := by
  intro a
  induction a with
  | nil => rfl
  | cons x xs ih => simp [lexLe, ih]

/-- On a list sorted by full reference name that contains `main`, the search
loop stops at `main` (in particular never at an earlier `master`, since
`refs/heads/main` sorts before `refs/heads/master`). -/
theorem find_main_of_sorted :
    ∀ l : List String, l.Sorted branchRefLe → "main" ∈ l →
      l.find? mainOrMaster = some "main" := by
  intro l
  induction l with
  | nil => intro _ hm; exact absurd hm (List.not_mem_nil _)
  | cons x xs ih =>
    intro hs hm
    rcases List.sorted_cons.mp hs with ⟨hx, hxs⟩
    by_cases hxm : x = "main"
    · subst hxm
      exact List.find?_cons_of_pos _ (by decide)
    · have hmem : "main" ∈ xs := by
        rcases List.mem_cons.mp hm with h | h
        · exact absurd h.symm hxm
        · exact h
      by_cases hxp : mainOrMaster x = true
      · have hxmaster : x = "master" := by
          rcases Bool.or_eq_true_iff.mp hxp with h | h
          · exact absurd (eq_of_beq h) hxm
          · exact eq_of_beq h
        exact absurd (hx _ hmem) (by rw [hxmaster]; decide)
      · rw [List.find?_cons_of_neg _ (by simpa using hxp)]
        exact ih hxs hmem

/-- If `master` is present and `main` is absent, the search loop stops at
`master`. -/
theorem find_master_of_no_main :
    ∀ l : List String, "master" ∈ l → "main" ∉ l →
      l.find? mainOrMaster = some "master" := by
  intro l
  induction l with
  | nil => intro hm _; exact absurd hm (List.not_mem_nil _)
  | cons x xs ih =>
    intro hm hnm
    by_cases hxm : x = "master"
    · subst hxm
      exact List.find?_cons_of_pos _ (by decide)
    · by_cases hxp : mainOrMaster x = true
      · have : x = "main" ∨ x = "master" := by
          rcases Bool.or_eq_true_iff.mp hxp with h | h
          · exact Or.inl (eq_of_beq h)
          · exact Or.inr (eq_of_beq h)
        rcases this with h | h
        · exact absurd (h ▸ List.mem_cons_self x xs) hnm
        · exact absurd h hxm
      · have hmem : "master" ∈ xs := by
          rcases List.mem_cons.mp hm with h | h
          · exact absurd h.symm hxm
          · exact h
        rw [List.find?_cons_of_neg _ (by simpa using hxp)]
        exact ih hmem (fun h => hnm (List.mem_cons_of_mem _ h))

/-- The sort used to model `sort.Sort` is a permutation of its input. -/
theorem sortBranchRefs_perm (l : List String) : (sortBranchRefs l).Perm l :=
  List.perm_insertionSort branchRefLe l

/-- The sort used to model `sort.Sort` sorts by full reference name. -/
theorem sortBranchRefs_sorted (l : List String) :
    (sortBranchRefs l).Sorted branchRefLe :=
  List.sorted_insertionSort branchRefLe l

/-- The head of a nonempty list sorted by full reference name is least. -/
theorem sorted_headD_least (l : List String) (hs : l.Sorted branchRefLe) :
    ∀ c ∈ l, branchRefLe (l.headD "") c := by
  cases l with
  | nil => intro c hc; exact absurd hc (List.not_mem_nil _)
  | cons x xs =>
    intro c hc
    rcases List.mem_cons.mp hc with h | h
    · subst h; exact lexLe_refl _
    · exact (List.sorted_cons.mp hs).1 _ h

/-- C4: on a successfully listed set of branches, `findMainBranch` fails
(with the no-branches error) exactly when there are no branches; otherwise
it prefers the branch short-named `main`, then `master`, and otherwise
returns the first element of the sorted branch list, which is least in the
full-reference-name order. -/
theorem findMainBranch_policy (branches : List String) :
    (findMainBranch branches = .error "no branches found" ↔ branches = []) ∧
    ("main" ∈ branches → findMainBranch branches = .ok "main") ∧
    ("main" ∉ branches → "master" ∈ branches →
      findMainBranch branches = .ok "master") ∧
    ("main" ∉ branches → "master" ∉ branches → branches ≠ [] →
      findMainBranch branches = .ok ((sortBranchRefs branches).headD "") ∧
      ∀ c ∈ branches, branchRefLe ((sortBranchRefs branches).headD "") c) := by
  have hperm := sortBranchRefs_perm branches
  have hsorted := sortBranchRefs_sorted branches
  have hempty : sortBranchRefs branches = [] ↔ branches = [] := by
    constructor
    · intro h
      have := hperm.length_eq
      rw [h] at this
      exact List.length_eq_zero.mp this.symm
    · intro h
      subst h
      rfl
  refine ⟨?_, ?_, ?_, ?_⟩
  · constructor
    · intro h
      by_contra hne
      have hbs : ¬ (sortBranchRefs branches).isEmpty = true := by
        rw [List.isEmpty_iff]
        exact fun h2 => hne (hempty.mp h2)
      unfold findMainBranch at h
      rw [if_neg hbs] at h
      cases hfind : (sortBranchRefs branches).find? mainOrMaster with
      | none => rw [hfind] at h; exact Except.noConfusion h
      | some b => rw [hfind] at h; exact Except.noConfusion h
    · intro h
      subst h
      rfl
  · intro hm
    have hbs : ¬ (sortBranchRefs branches).isEmpty = true := by
      rw [List.isEmpty_iff]
      intro h2
      rw [hempty.mp h2] at hm
      exact List.not_mem_nil _ hm
    have hfind := find_main_of_sorted _ hsorted (hperm.mem_iff.mpr hm)
    unfold findMainBranch
    rw [if_neg hbs, hfind]
  · intro hnm hm
    have hbs : ¬ (sortBranchRefs branches).isEmpty = true := by
      rw [List.isEmpty_iff]
      intro h2
      rw [hempty.mp h2] at hm
      exact List.not_mem_nil _ hm
    have hfind := find_master_of_no_main _ (hperm.mem_iff.mpr hm)
      (fun h => hnm (hperm.mem_iff.mp h))
    unfold findMainBranch
    rw [if_neg hbs, hfind]
  · intro hnm hnms hne
    have hbs : ¬ (sortBranchRefs branches).isEmpty = true := by
      rw [List.isEmpty_iff]
      exact fun h2 => hne (hempty.mp h2)
    have hfind : (sortBranchRefs branches).find? mainOrMaster = none := by
      rw [List.find?_eq_none]
      intro x hx
      have hxmem := hperm.mem_iff.mp hx
      simp only [mainOrMaster, Bool.or_eq_true, beq_iff_eq]
      push_neg
      exact ⟨fun h => hnm (h ▸ hxmem), fun h => hnms (h ▸ hxmem)⟩
    constructor
    · unfold findMainBranch
      rw [if_neg hbs, hfind]
    · intro c hc
      exact sorted_headD_least _ hsorted _ (hperm.mem_iff.mpr hc)

/-- Witness for C4 at the branch sets named by the spec:
`{main, dev}` yields `main`, `{master, dev}` yields `master`, and
`{zeta, alpha}` yields `alpha`. -/
theorem findMainBranch_policy_witness :
    findMainBranch ["main", "dev"] = .ok "main" ∧
    findMainBranch ["master", "dev"] = .ok "master" ∧
    findMainBranch ["zeta", "alpha"] = .ok "alpha" := by
  refine ⟨(findMainBranch_policy ["main", "dev"]).2.1 (by decide),
    (findMainBranch_policy ["master", "dev"]).2.2.1 (by decide) (by decide), ?_⟩
  have h := (findMainBranch_policy ["zeta", "alpha"]).2.2.2
    (by decide) (by decide) (by decide)
  have hhead : (sortBranchRefs ["zeta", "alpha"]).headD "" = "alpha" := by decide
  rw [hhead] at h
  exact h.1

/-- C9 counterexample: when the reference iterator fails before `io.EOF`,
`ReferenceCollector` returns the references collected so far in iteration
order — the `sort.Sort` call is never reached — so the output is not
sorted by full reference name. -/
theorem referenceCollector_unsorted_on_error :
    (ReferenceCollector ⟨["refs/heads/b", "refs/heads/a"], some "iterator failed"⟩).1 =
      ["refs/heads/b", "refs/heads/a"] ∧
    ¬ (ReferenceCollector
        ⟨["refs/heads/b", "refs/heads/a"], some "iterator failed"⟩).1.Sorted refLe := by
  constructor
  · rfl
  · intro h
    have := (List.pairwise_cons.mp h).1 "refs/heads/a" (by decide)
    exact absurd this (by decide)

/-- C9 amended: the reference sequence is sorted by full name whenever the
listing reports no error (successful iteration, and the degenerate empty
result when the iterator cannot be obtained); when iteration fails mid-way,
the partial reference list is returned in iteration order together with the
error. -/
theorem listBranches_sorted_unless_iter_error (r : Except String IterOutcome) :
    ((ListBranches r).2 = none → (ListBranches r).1.Sorted refLe) ∧
    (∀ it e, r = .ok it → it.failure = some e →
      ListBranches r = (it.produced, some e)) ∧
    (∀ e, r = .error e → ListBranches r = ([], some e)) := by
  refine ⟨?_, ?_, ?_⟩
  · intro hnone
    cases r with
    | error e => exact absurd hnone (by simp [ListBranches])
    | ok it =>
      cases hf : it.failure with
      | some e =>
        rw [show ListBranches (.ok it) = (it.produced, some e) from by
          simp [ListBranches, ReferenceCollector, hf]] at hnone
        exact absurd hnone (by simp)
      | none =>
        simp only [ListBranches, ReferenceCollector, hf]
        exact List.sorted_insertionSort refLe it.produced
  · intro it e hr hf
    subst hr
    simp [ListBranches, ReferenceCollector, hf]
  · intro e hr
    subst hr
    rfl

/-- Witness for C9 (amended): a successfully iterated, initially unsorted
reference set comes back sorted. -/
theorem listBranches_sorted_witness :
    (ListBranches (.ok ⟨["refs/heads/b", "refs/heads/a"], none⟩)).1 =
      ["refs/heads/a", "refs/heads/b"] ∧
    (ListBranches (.ok ⟨["refs/heads/b", "refs/heads/a"], none⟩)).1.Sorted refLe :=
  ⟨by decide,
   (listBranches_sorted_unless_iter_error (.ok ⟨["refs/heads/b", "refs/heads/a"], none⟩)).1
     (by decide)⟩

/-- Behaviour of the spawned `git` subprocess as observed by
`WriteGitToHttp`: the stdout pipe may fail to open, `cmd.Start()` may fail,
or the command runs and its output is copied to the response (that copy may
itself fail when the client disconnects). -/
inductive SpawnBehavior
  | pipeError
  | startError
  | runs (output : String) (copyFails : Bool)
  deriving DecidableEq

/-- What one request through the bridge does to the serving process:
either the handler finishes and the process keeps serving, or `log.Fatal`
runs, which calls `os.Exit(1)` and terminates the whole process (taking
every concurrent request with it). `statusWritten` records a
`WriteHeader` call made before the exit. -/
inductive BridgeOutcome
  | done (status : Nat) (body : String)
  | fatalExit (statusWritten : Option Nat)
  deriving DecidableEq

/-- Model of `WriteGitToHttp`: on a stdout-pipe error or a start error the
code calls `w.WriteHeader(404)` and then `log.Fatal("Error:", err)` — the
`return` after it is unreachable; a failed `io.Copy` also reaches
`log.Fatal`. -/
def WriteGitToHttp (b : SpawnBehavior) : BridgeOutcome :=
  match b with
  | .pipeError => .fatalExit (some 404)
  | .startError => .fatalExit (some 404)
  | .runs out copyFails =>
    if copyFails then .fatalExit none else .done 200 out

/-- Whether the serving process is still alive once the request handler is
done. -/
def servingProcessSurvives : BridgeOutcome → Bool
  | .done _ _ => true
  | .fatalExit _ => false

/-- The repository registry, Go `map[string]RepositoryWithName`, modelled
as an association list from repository name to repository path (Go map
assignment replaces the value of an existing key). -/
abbrev RegMap := List (String × String)

/-- Go map assignment `m[k] = v`. -/
def regInsert (m : RegMap) (k v : String) : RegMap :=
  if m.any (fun p => p.1 == k) then
    m.map (fun p => if p.1 == k then (k, v) else p)
  else m ++ [(k, v)]

/-- Model of `FindRepo`: the comma-ok map read `value, exists := sc.repos[slug]`. -/
def FindRepo (m : RegMap) (slug : String) : Option String × Bool :=
  match m.find? (fun p => p.1 == slug) with
  | some p => (some p.2, true)
  | none => (none, false)

/-- A directory entry of the root directory, as seen by the scan loop in
`LoadAllRepositories`: its name and whether `git.PlainOpen` succeeds on it
(directories that fail to open are skipped with `continue`). -/
structure DirEntry where
  name : String
  validRepo : Bool
  deriving DecidableEq

/-- Go `path.Join(root, name)` for a clean root and a plain file name. -/
def pathJoin (root name : String) : String := root ++ "/" ++ name

/-- One iteration of the scan loop of `LoadAllRepositories`: a valid
repository directory is inserted into the (shared, in-place mutated) map,
an invalid one leaves it unchanged. -/
def scanStep (root : String) (m : RegMap) (f : DirEntry) : RegMap :=
  if f.validRepo then regInsert m f.name (pathJoin root f.name) else m

/-- The mapping after running the scan loop from an intermediate map. -/
def scanFrom (root : String) (cur : RegMap) (fs : List DirEntry) : RegMap :=
  fs.foldl (scanStep root) cur

/-- The mapping a completed `LoadAllRepositories` leaves behind. -/
def newMapping (root : String) (files : List DirEntry) : RegMap :=
  scanFrom root [] files

/-- The successive registry states while the scan loop runs, starting from
the freshly assigned empty map. -/
def loadLoop (root : String) : RegMap → List DirEntry → List RegMap
  | cur, [] => [cur]
  | cur, f :: fs => cur :: loadLoop root (scanStep root cur f) fs

/-- Every registry state observable while `LoadAllRepositories` runs: the
old mapping (until `sc.repos = make(map[string]RepositoryWithName)`
executes), then the fresh empty map, then the map as each successfully
opened directory is added in place. A concurrent `FindRepo` or
`GetRepositories` reads whichever state is current. -/
def loadStates (old : RegMap) (root : String) (files : List DirEntry) : List RegMap :=
  old :: loadLoop root [] files

/-- The scan-loop state list is never empty. -/
theorem loadLoop_ne_nil (root : String) :
    ∀ (fs : List DirEntry) (cur : RegMap), loadLoop root cur fs ≠ [] := by
  intro fs
  cases fs <;> intro cur <;> simp [loadLoop]

/-- The last scan-loop state is the full scan result. -/
theorem loadLoop_getLast? (root : String) :
    ∀ (fs : List DirEntry) (cur : RegMap),
      (loadLoop root cur fs).getLast? = some (scanFrom root cur fs) := by
  intro fs
  induction fs with
  | nil => intro cur; rfl
  | cons f fs ih =>
    intro cur
    rw [show loadLoop root cur (f :: fs) = cur :: loadLoop root (scanStep root cur f) fs
      from rfl]
    obtain ⟨x, rest, hx⟩ :=
      List.exists_cons_of_ne_nil (loadLoop_ne_nil root fs (scanStep root cur f))
    rw [hx, List.getLast?_cons_cons, ← hx, ih]
    rfl

/-- Every scan-loop state is the scan of some prefix of the remaining
directory list. -/
theorem loadLoop_states_are_prefixes (root : String) :
    ∀ (fs : List DirEntry) (cur : RegMap) (s : RegMap), s ∈ loadLoop root cur fs →
      ∃ pre suff, fs = pre ++ suff ∧ s = scanFrom root cur pre := by
  intro fs
  induction fs with
  | nil =>
    intro cur s hs
    rw [show loadLoop root cur [] = [cur] from rfl] at hs
    rcases List.mem_singleton.mp hs with h
    exact ⟨[], [], rfl, h⟩
  | cons f fs ih =>
    intro cur s hs
    rw [show loadLoop root cur (f :: fs) = cur :: loadLoop root (scanStep root cur f) fs
      from rfl] at hs
    rcases List.mem_cons.mp hs with h | h
    · exact ⟨[], f :: fs, rfl, h⟩
    · obtain ⟨pre, suff, hfs, hsval⟩ := ih (scanStep root cur f) s h
      exact ⟨f :: pre, suff, by rw [List.cons_append, hfs], hsval⟩

/-- C1: when the subprocess fails to start or its stdout pipe cannot be
opened, `WriteGitToHttp` reaches `log.Fatal`, so the serving process exits
instead of continuing to serve concurrent requests (a 404 header is
written just before the exit). -/
theorem writeGitToHttp_kills_process_on_spawn_failure :
    WriteGitToHttp .startError = .fatalExit (some 404) ∧
    WriteGitToHttp .pipeError = .fatalExit (some 404) ∧
    servingProcessSurvives (WriteGitToHttp .startError) = false ∧
    servingProcessSurvives (WriteGitToHttp .pipeError) = false :=
  ⟨rfl, rfl, rfl, rfl⟩

/-- C2 counterexample: a reload that scans two repositories `x` and `y`
over an old registry containing `old` exposes the intermediate state
`{x}`, which is neither the old mapping nor the completed new mapping, to
a concurrent reader. -/
theorem loadAllRepositories_not_atomic :
    [("x", "/srv/x")] ∈
      loadStates [("old", "/srv/old")] "/srv" [⟨"x", true⟩, ⟨"y", true⟩] ∧
    [("x", "/srv/x")] ≠ [("old", "/srv/old")] ∧
    [("x", "/srv/x")] ≠ newMapping "/srv" [⟨"x", true⟩, ⟨"y", true⟩] := by
  decide

/-- C2 amended: `LoadAllRepositories` is not an atomic swap — it first
installs a fresh empty map and then populates it in place, so a reader
concurrent with a reload observes the old mapping or the scan of some
prefix of the directory list (including the empty map); the state left
when the reload completes is the full new mapping. -/
theorem loadStates_characterization (old : RegMap) (root : String)
    (files : List DirEntry) (s : RegMap) (hs : s ∈ loadStates old root files) :
    (s = old ∨ ∃ k, s = newMapping root (files.take k)) ∧
    (loadStates old root files).getLast? = some (newMapping root files) := by
  constructor
  · rcases List.mem_cons.mp hs with h | h
    · exact Or.inl h
    · obtain ⟨pre, suff, hfs, hsval⟩ := loadLoop_states_are_prefixes root files [] s h
      refine Or.inr ⟨pre.length, ?_⟩
      rw [hsval, newMapping, hfs, List.take_left]
  · rw [loadStates]
    obtain ⟨x, rest, hx⟩ := List.exists_cons_of_ne_nil (loadLoop_ne_nil root files [])
    rw [hx, List.getLast?_cons_cons, ← hx]
    exact loadLoop_getLast? root files []

/-- Witness for C2 (amended): at a concrete reload trace, the observed
intermediate state `{x}` is the scan of the one-element prefix, and the
final state is the full mapping. -/
theorem loadStates_characterization_witness :
    ([("x", "/srv/x")] = [("old", "/srv/old")] ∨
      ∃ k, [("x", "/srv/x")] =
        newMapping "/srv" (([⟨"x", true⟩, ⟨"y", true⟩] : List DirEntry).take k)) ∧
    (loadStates [("old", "/srv/old")] "/srv" [⟨"x", true⟩, ⟨"y", true⟩]).getLast? =
      some (newMapping "/srv" [⟨"x", true⟩, ⟨"y", true⟩]) :=
  loadStates_characterization [("old", "/srv/old")] "/srv"
    [⟨"x", true⟩, ⟨"y", true⟩] [("x", "/srv/x")] (by decide)

/-- Lowercase digit characters of Go `%x` formatting: `0`-`9` then `a`-`f`. -/
def hexDigitChar (n : Nat) : Char :=
  if n < 10 then Char.ofNat (48 + n) else Char.ofNat (87 + n)

/-- Fuel-driven digit expansion (the fuel only serves structural
termination; any fuel above the value itself gives the digits). -/
def toHexAux : Nat → Nat → List Char
  | 0, _ => []
  | fuel + 1, n =>
    if n < 16 then [hexDigitChar n]
    else toHexAux fuel (n / 16) ++ [hexDigitChar (n % 16)]

/-- Lowercase hexadecimal digits of `n`, most significant first, as Go
`%x` prints them. -/
def toHex (n : Nat) : List Char := toHexAux (n + 1) n

/-- Go `fmt.Sprintf("%.4x", n)`: lowercase hexadecimal, zero-padded on the
left to at least four digits (the precision is a minimum, not a cap). -/
def fmtHex4 (n : Nat) : String :=
  ⟨List.replicate (4 - (toHex n).length) '0' ++ toHex n⟩

/-- Numeric value of a hex digit character (inverse of `hexDigitChar`). -/
def hexCharVal (c : Char) : Nat :=
  if c.toNat ≥ 97 then c.toNat - 87 else c.toNat - 48

/-- Value denoted by a big-endian string of hex digits. -/
def hexValue (ds : List Char) : Nat :=
  ds.foldl (fun acc c => 16 * acc + hexCharVal c) 0

/-- The sixteen lowercase hexadecimal digit characters. -/
def hexDigits : List Char := "0123456789abcdef".data

/-- Go `strings.Replace(s, pat, "", 1)`: delete the first occurrence of
`pat`. -/
def removeFirstOcc (pat : List Char) : List Char → List Char
  | [] => []
  | c :: rest =>
    if pat.isPrefixOf (c :: rest) then (c :: rest).drop pat.length
    else c :: removeFirstOcc pat rest

/-- The handlers' `serviceName := strings.Replace(service, "git-", "", 1)`. -/
def stripGitDash (service : String) : String :=
  ⟨removeFirstOcc "git-".data service.data⟩

/-- The pkt-line service line `"# service=git-" + serviceName`. -/
def serviceLine (serviceName : String) : String := "# service=git-" ++ serviceName

/-- The fixed pkt-line length offset, `var offset = 5` in the source. -/
def offset : Nat := 5

/-- The bytes `getInfoRefs` writes ahead of the subprocess output:
`fmt.Fprintf(w, "%.4x%s\n", len(str)+offset, str)` followed by
`fmt.Fprintf(w, "0000")`. -/
def advertPreamble (service : String) : String :=
  let serviceName := stripGitDash service
  let str := serviceLine serviceName
  fmtHex4 (str.length + offset) ++ str ++ "\n" ++ "0000"

/-- The advertisement preamble as the design text words it: the service
line length plus 4 (the pkt-line count covers its own four digits) plus 1
(the trailing newline), then the line, a newline and a flush packet. This
definition follows the specification text and is compared against
`advertPreamble`, which follows the code. -/
def specAdvertPreamble (verb : String) : String :=
  fmtHex4 ((serviceLine verb).length + 4 + 1) ++ serviceLine verb ++ "\n" ++ "0000"

/-- Hex digits parse back to the value they encode (fuel form). -/
theorem hexValue_toHexAux :
    ∀ (n fuel : Nat), n < fuel → hexValue (toHexAux fuel n) = n := by
  intro n
  induction n using Nat.strong_induction_on with
  | _ n ih =>
    intro fuel hfuel
    cases fuel with
    | zero => omega
    | succ f =>
      rw [toHexAux]
      split
      · next h =>
        exact (by decide : ∀ m, m < 16 → hexValue [hexDigitChar m] = m) n h
      · next h =>
        have hdiv : n / 16 < n := Nat.div_lt_self (by omega) (by omega)
        have hmod : hexCharVal (hexDigitChar (n % 16)) = n % 16 :=
          (by decide : ∀ m, m < 16 → hexCharVal (hexDigitChar m) = m) _
            (Nat.mod_lt _ (by omega))
        have hfoldl : hexValue (toHexAux f (n / 16) ++ [hexDigitChar (n % 16)]) =
            16 * hexValue (toHexAux f (n / 16)) + hexCharVal (hexDigitChar (n % 16)) := by
          simp [hexValue, List.foldl_append]
        rw [hfoldl, ih _ hdiv f (by omega), hmod]
        exact Nat.div_add_mod n 16

/-- Hex digits parse back to the value they encode. -/
theorem hexValue_toHex (n : Nat) : hexValue (toHex n) = n :=
  hexValue_toHexAux n (n + 1) (by omega)

/-- Left-padding with zero digits does not change the denoted value. -/
theorem hexValue_replicate_zero :
    ∀ (k : Nat) (ds : List Char), hexValue (List.replicate k '0' ++ ds) = hexValue ds := by
  intro k
  induction k with
  | zero => intro ds; rfl
  | succ k ih =>
    intro ds
    rw [List.replicate_succ, List.cons_append]
    show List.foldl _ ((fun acc c => 16 * acc + hexCharVal c) 0 '0') _ = _
    have : (fun acc c => 16 * acc + hexCharVal c) 0 '0' = 0 := by decide
    rw [this]
    exact ih ds

/-- The hex digit count of `n` is at most `k` once `n < 16 ^ k` (fuel form). -/
theorem toHexAux_length_le :
    ∀ (k n fuel : Nat), 1 ≤ k → n < 16 ^ k → n < fuel →
      (toHexAux fuel n).length ≤ k := by
  intro k
  induction k with
  | zero => intro n fuel h; omega
  | succ k ih =>
    intro n fuel _ hn hfuel
    cases fuel with
    | zero => omega
    | succ f =>
      rw [toHexAux]
      split
      · simp
      · next h =>
        have hk : 1 ≤ k := by
          by_contra hk0
          have hk1 : k = 0 := by omega
          subst hk1
          simp at hn
          omega
        have hdivlt : n / 16 < 16 ^ k := by
          rw [Nat.div_lt_iff_lt_mul (by omega)]
          calc n < 16 ^ (k + 1) := hn
            _ = 16 ^ k * 16 := by rw [Nat.pow_succ]
        have hdivfuel : n / 16 < f := by
          have := Nat.div_lt_self (show 0 < n by omega) (show 1 < 16 by omega)
          omega
        have := ih (n / 16) f hk hdivlt hdivfuel
        simp only [List.length_append, List.length_cons, List.length_nil]
        omega

/-- The hex digit count of `n` is at most `k` once `n < 16 ^ k`. -/
theorem toHex_length_le (k n : Nat) (h1 : 1 ≤ k) (h2 : n < 16 ^ k) :
    (toHex n).length ≤ k :=
  toHexAux_length_le k n (n + 1) h1 h2 (by omega)

/-- The hex digit count is always at least one. -/
theorem toHex_length_pos (n : Nat) : 1 ≤ (toHex n).length := by
  rw [toHex, toHexAux]
  split
  · simp
  · simp

/-- Every character `toHexAux` emits is a lowercase hex digit. -/
theorem toHexAux_chars :
    ∀ (n fuel : Nat), n < fuel → ∀ c ∈ toHexAux fuel n, c ∈ hexDigits := by
  intro n
  induction n using Nat.strong_induction_on with
  | _ n ih =>
    intro fuel hfuel
    cases fuel with
    | zero => omega
    | succ f =>
      rw [toHexAux]
      split
      · next h =>
        intro c hc
        rcases List.mem_singleton.mp hc with rfl
        exact (by decide : ∀ m, m < 16 → hexDigitChar m ∈ hexDigits) n h
      · next h =>
        intro c hc
        rcases List.mem_append.mp hc with h2 | h2
        · have hdiv : n / 16 < n := Nat.div_lt_self (by omega) (by omega)
          exact ih _ hdiv f (by omega) c h2
        · rcases List.mem_singleton.mp h2 with rfl
          exact (by decide : ∀ m, m < 16 → hexDigitChar m ∈ hexDigits) _
            (Nat.mod_lt _ (by omega))

/-- Every character `toHex` emits is a lowercase hex digit. -/
theorem toHex_chars (n : Nat) : ∀ c ∈ toHex n, c ∈ hexDigits :=
  toHexAux_chars n (n + 1) (by omega)

/-- With `n < 16 ^ 4` the `%.4x` field is exactly four characters. -/
theorem fmtHex4_length (n : Nat) (h : n < 65536) : (fmtHex4 n).length = 4 := by
  have h1 := toHex_length_le 4 n (by omega) (by norm_num; omega)
  have h2 := toHex_length_pos n
  show (List.replicate (4 - (toHex n).length) '0' ++ toHex n).length = 4
  rw [List.length_append, List.length_replicate]
  omega

/-- The `%.4x` field parses back to the number it was printed from. -/
theorem fmtHex4_value (n : Nat) : hexValue (fmtHex4 n).data = n := by
  show hexValue (List.replicate (4 - (toHex n).length) '0' ++ toHex n) = n
  rw [hexValue_replicate_zero, hexValue_toHex]

/-- Every character of the `%.4x` field is a lowercase hex digit. -/
theorem fmtHex4_chars (n : Nat) : ∀ c ∈ (fmtHex4 n).data, c ∈ hexDigits := by
  intro c hc
  rcases List.mem_append.mp hc with h | h
  · rcases List.eq_of_mem_replicate h with rfl
    decide
  · exact toHex_chars n c h

/-- Stripping the first `git-` from `git-<verb>` yields `<verb>`. -/
theorem stripGitDash_prepend (v : String) : stripGitDash ("git-" ++ v) = v := by
  have h1 : ("git-" ++ v).data = 'g' :: 'i' :: 't' :: '-' :: v.data := rfl
  have h2 : removeFirstOcc "git-".data ('g' :: 'i' :: 't' :: '-' :: v.data) = v.data := by
    rw [removeFirstOcc, if_pos (by simp [List.isPrefixOf])]
    rfl
  show String.mk (removeFirstOcc "git-".data ("git-" ++ v).data) = v
  rw [h1, h2]

/-- C3: for any service verb (of pkt-line-representable length), the
advertisement written by `getInfoRefs` for `service=git-<verb>` is exactly
the four lowercase-hex digits of the service line length plus 4 plus 1,
then the service line, a newline and the `0000` flush packet — the code's
`len(str)+offset` with `offset = 5` agrees with the specified
`len + 4 + 1` framing. -/
theorem advertPreamble_spec (verb : String)
    (h : (serviceLine verb).length + 5 < 65536) :
    advertPreamble ("git-" ++ verb) = specAdvertPreamble verb ∧
    (fmtHex4 ((serviceLine verb).length + 4 + 1)).length = 4 ∧
    (∀ c ∈ (fmtHex4 ((serviceLine verb).length + 4 + 1)).data, c ∈ hexDigits) ∧
    hexValue (fmtHex4 ((serviceLine verb).length + 4 + 1)).data =
      (serviceLine verb).length + 4 + 1 := by
  refine ⟨?_, ?_, fmtHex4_chars _, fmtHex4_value _⟩
  · show advertPreamble ("git-" ++ verb) = specAdvertPreamble verb
    rw [advertPreamble, specAdvertPreamble, stripGitDash_prepend]
    rfl
  · exact fmtHex4_length _ (by omega)

/-- At concrete values the formatter computes: `30 = 0x1e`. -/
theorem fmtHex4_thirty : fmtHex4 30 = "001e" := by decide

/-- Witness for C3 at the verb `upload-pack`: the service line has 25
bytes, so the prefix is `001e` (30 in hex), and the whole preamble is the
byte-for-byte advertisement a Git client expects. -/
theorem advertPreamble_spec_witness :
    (serviceLine "upload-pack").length + 5 < 65536 ∧
    advertPreamble "git-upload-pack" = "001e# service=git-upload-pack\n0000" ∧
    advertPreamble "git-upload-pack" = specAdvertPreamble "upload-pack" :=
  ⟨by decide, by decide, (advertPreamble_spec "upload-pack" (by decide)).1⟩

/-- What a browsing handler does with the response: render a template
(`sc.Render`, with the status and error-message fields of the data map),
write a formatted body (`fmt.Fprintf`), or hit a nil-pointer dereference
that panics the handler. -/
inductive RenderOutcome
  | page (tmpl : String) (status : Option Nat) (errMsg : Option String)
  | output (body : String)
  | nilPanic
  deriving DecidableEq

deriving instance DecidableEq for Except

/-- The data `PatchView` reads off a successfully looked-up commit object.
`authorDate` stands for `Author.When.Format("Mon, 2 Jan 2006 15:04:05 -0700")`
already rendered to text (time formatting itself is outside the model);
`parentPatch` is the combined result of `commitObj.Parent(0)` and
`parentCommit.Patch(commitObj).String()`, and `stats` the result of
`commitObj.Stats().String()`. -/
structure CommitInfo where
  hash : String
  authorName : String
  authorEmail : String
  authorDate : String
  message : String
  parents : Nat
  parentPatch : Except String String
  stats : Except String String
  deriving DecidableEq

/-- The exact format string of `PatchView`:
`fmt.Fprintf(w, "%s\n%s\n%s\n%s\n---\n%s\n%s", commitHashStr, from, date,
subject, stats.String(), patch)` with the four header lines built by
`fmt.Sprintf` just above it. -/
def patchEnvelope (c : CommitInfo) (stats patch : String) : String :=
  ("From " ++ c.hash ++ " Mon Sep 17 00:00:00 2001") ++ "\n" ++
  ("From: " ++ c.authorName ++ " <" ++ c.authorEmail ++ ">") ++ "\n" ++
  ("Date: " ++ c.authorDate) ++ "\n" ++
  ("Subject: [PATCH] " ++ c.message) ++ "\n" ++ "---" ++ "\n" ++
  stats ++ "\n" ++ patch

/-- Model of `PatchView` from the point where the commit lookup has
succeeded. In the zero-parent branch the code runs `sc.Error(w, err)` where
`err` is the `nil` error left over from the successful `CommitObject`
call; `Error` invokes `err.Error()` on that nil interface, a nil-pointer
dereference that panics the handler. -/
def renderPatchEnvelope (c : CommitInfo) : RenderOutcome :=
  if c.parents = 0 then
    .nilPanic
  else
    match c.parentPatch with
    | .error e => .page "error" none (some e)
    | .ok patch =>
      match c.stats with
      | .error e => .page "error" none (some e)
      | .ok stats => .output (patchEnvelope c stats patch)

/-- Model of the full `PatchView` handler: repository lookup, commit-id
check, commit lookup (`commitLookup` standing for
`repo.Repository.CommitObject(commitHash)`), then the envelope. -/
def PatchView (registry : RegMap) (repoName commitID : String)
    (commitLookup : Option CommitInfo) : RenderOutcome :=
  if (FindRepo registry repoName).2 = false then
    .page "error" (some 404) (some "Repository not found")
  else if commitID = "" then
    .page "error" (some 404) (some "Commit not found")
  else
    match commitLookup with
    | none => .page "error" (some 404) (some "Repository not found")
    | some c => renderPatchEnvelope c

/-- What a Smart HTTP handler does before handing off to `WriteGitToHttp`:
the response status (200 unless `WriteHeader` is called with another code
— these handlers never call it on the paths modelled here), the
Content-Type header, the bytes written ahead of the subprocess output, the
argument vector of the spawned `git` command, and its standard input. -/
structure SmartHttpResponse where
  status : Nat
  contentType : String
  preamble : String
  gitArgs : List String
  gitStdin : Option String
  deriving DecidableEq

/-- Model of `getInfoRefs`: the lookup result flag is discarded
(`repo, _ := sc.FindRepo(repoName)`), so a missing repository contributes
the zero-value handle whose `Path` is the empty string, and the handler
proceeds regardless. -/
def getInfoRefs (registry : RegMap) (repoName service : String) : SmartHttpResponse :=
  let repoPath := ((FindRepo registry repoName).1).getD ""
  let serviceName := stripGitDash service
  { status := 200
  , contentType := "application/x-git-" ++ serviceName ++ "-advertisement"
  , preamble := advertPreamble service
  , gitArgs := [serviceName, "--stateless-rpc", "--advertise-refs", repoPath]
  , gitStdin := none }

/-- Model of `uploadPack` (request body read successfully; the body-read
failure path is a `log.Fatal`, as in `WriteGitToHttp`). The lookup flag is
discarded exactly as in `getInfoRefs`. -/
def uploadPack (registry : RegMap) (repoName requestBody : String) : SmartHttpResponse :=
  let repoPath := ((FindRepo registry repoName).1).getD ""
  { status := 200
  , contentType := "application/x-git-upload-pack-result"
  , preamble := ""
  , gitArgs := ["upload-pack", "--stateless-rpc", repoPath]
  , gitStdin := some requestBody }

/-- Model of `receivePack`, identical in shape to `uploadPack`. -/
def receivePack (registry : RegMap) (repoName requestBody : String) : SmartHttpResponse :=
  let repoPath := ((FindRepo registry repoName).1).getD ""
  { status := 200
  , contentType := "application/x-git-receive-pack-result"
  , preamble := ""
  , gitArgs := ["receive-pack", "--stateless-rpc", repoPath]
  , gitStdin := some requestBody }

/-- String append acts as list append on the underlying characters. -/
theorem data_append (s t : String) : (s ++ t).data = s.data ++ t.data := rfl

/-- Sequential containment: the patterns occur in the text in the given
order, each occurrence starting after the previous one ends. -/
def OrdOcc : List Char → List (List Char) → Prop
  | _, [] => True
  | s, p :: ps => ∃ a b, s = a ++ (p ++ b) ∧ OrdOcc b ps

/-- Executable check for sequential containment. -/
def ordOccB : List Char → List (List Char) → Bool
  | _, [] => true
  | s, p :: ps =>
    (List.range (s.length + 1)).any fun i =>
      p.isPrefixOf (s.drop i) && ordOccB ((s.drop i).drop p.length) ps

/-- Trivial sequential containment. -/
theorem ordOcc_nil (s : List Char) : OrdOcc s [] := trivial

/-- Introduction rule exhibiting one occurrence and the remaining text. -/
theorem ordOcc_cons (a p b : List Char) (ps : List (List Char))
    (h : OrdOcc b ps) : OrdOcc (a ++ (p ++ b)) (p :: ps) := ⟨a, b, rfl, h⟩

/-- The executable check decides sequential containment. -/
theorem ordOcc_iff_ordOccB :
    ∀ (ps : List (List Char)) (s : List Char), OrdOcc s ps ↔ ordOccB s ps = true := by
  intro ps
  induction ps with
  | nil => intro s; simp [OrdOcc, ordOccB]
  | cons p ps ih =>
    intro s
    constructor
    · rintro ⟨a, b, rfl, hb⟩
      rw [ordOccB, List.any_eq_true]
      have hdrop : (a ++ (p ++ b)).drop a.length = p ++ b := List.drop_left a (p ++ b)
      refine ⟨a.length, List.mem_range.mpr ?_, ?_⟩
      · simp only [List.length_append]
        omega
      · rw [Bool.and_eq_true]
        constructor
        · rw [hdrop, List.isPrefixOf_iff_prefix]
          exact ⟨b, rfl⟩
        · rw [hdrop, List.drop_left]
          exact (ih b).mp hb
    · intro h
      rw [ordOccB, List.any_eq_true] at h
      obtain ⟨i, _, hcond⟩ := h
      rw [Bool.and_eq_true] at hcond
      obtain ⟨hpre, hrest⟩ := hcond
      rw [List.isPrefixOf_iff_prefix] at hpre
      obtain ⟨t, ht⟩ := hpre
      refine ⟨s.take i, t, ?_, ?_⟩
      · rw [ht]
        exact (List.take_append_drop i s).symm
      · have hdt : (s.drop i).drop p.length = t := by
          rw [← ht, List.drop_left]
        rw [hdt] at hrest
        exact (ih t).mpr hrest

/-- A concrete single-parent commit whose patch and diffstat computations
succeed, used to evaluate the envelope. -/
def c6Commit : CommitInfo :=
  ⟨"h", "A", "e", "D", "M", 1, .ok "P", .ok "S"⟩

/-- C6 counterexample: the claimed order — diffstat before the `---`
separator — does not hold of the envelope `PatchView` prints: the code
emits the separator first (`"%s\n%s\n%s\n%s\n---\n%s\n%s"` places `---`
between the subject and the diffstat), so no occurrence of the diffstat is
followed by a separator and then the diff body. -/
theorem patchEnvelope_claimed_order_fails :
    renderPatchEnvelope c6Commit = .output (patchEnvelope c6Commit "S" "P") ∧
    ¬ OrdOcc (patchEnvelope c6Commit "S" "P").data
        ["From h Mon Sep 17 00:00:00 2001".data, "From: A <e>".data, "Date: D".data,
         "Subject: [PATCH] M".data, "S".data, "---".data, "P".data] := by
  constructor
  · rfl
  · rw [ordOcc_iff_ordOccB]
    decide

/-- C6 amended: on every single-parent commit whose patch and diffstat
computations succeed, the envelope contains, in order: the `From `
sentinel line, the `From:` author header, the `Date:` header, the
`Subject: [PATCH]` line with the commit message, then the `---` separator,
then the diffstat summary, then the unified diff body — the separator
comes before the diffstat, as in `git format-patch` output. -/
theorem patchEnvelope_order (c : CommitInfo) (patch stats : String)
    (hp : c.parents ≠ 0) (hpp : c.parentPatch = .ok patch)
    (hst : c.stats = .ok stats) :
    renderPatchEnvelope c = .output (patchEnvelope c stats patch) ∧
    OrdOcc (patchEnvelope c stats patch).data
      ["From ".data,
       ("From: " ++ c.authorName ++ " <" ++ c.authorEmail ++ ">").data,
       ("Date: " ++ c.authorDate).data,
       ("Subject: [PATCH] " ++ c.message).data,
       "---".data, stats.data, patch.data] := by
  constructor
  · simp [renderPatchEnvelope, hp, hpp, hst]
  · have hd : (patchEnvelope c stats patch).data =
        [] ++ ("From ".data ++
          ((c.hash.data ++ (" Mon Sep 17 00:00:00 2001".data ++ "\n".data)) ++
            (("From: " ++ c.authorName ++ " <" ++ c.authorEmail ++ ">").data ++
              ("\n".data ++
                (("Date: " ++ c.authorDate).data ++
                  ("\n".data ++
                    (("Subject: [PATCH] " ++ c.message).data ++
                      ("\n".data ++
                        ("---".data ++
                          ("\n".data ++
                            (stats.data ++
                              ("\n".data ++
                                (patch.data ++ ([] : List Char)))))))))))))) := by
      simp [patchEnvelope, data_append, List.append_assoc]
    rw [hd]
    apply ordOcc_cons
    apply ordOcc_cons
    apply ordOcc_cons
    apply ordOcc_cons
    apply ordOcc_cons
    apply ordOcc_cons
    apply ordOcc_cons
    exact ordOcc_nil _

/-- Witness for C6 (amended) at the concrete single-parent commit. -/
theorem patchEnvelope_order_witness :
    renderPatchEnvelope c6Commit = .output (patchEnvelope c6Commit "S" "P") ∧
    OrdOcc (patchEnvelope c6Commit "S" "P").data
      ["From ".data,
       ("From: " ++ c6Commit.authorName ++ " <" ++ c6Commit.authorEmail ++ ">").data,
       ("Date: " ++ c6Commit.authorDate).data,
       ("Subject: [PATCH] " ++ c6Commit.message).data,
       "---".data, "S".data, "P".data] :=
  patchEnvelope_order c6Commit "P" "S" (by decide) (by decide) (by decide)

/-- A concrete root (zero-parent) commit as `PatchView` would look it up;
`Parent(0)` fails on it, so the patch and stats fields hold errors the
code never reads. -/
def rootCommit : CommitInfo :=
  ⟨"0123abc", "Alice", "alice@example.org", "Mon, 1 Jan 2024 00:00:00 +0000",
   "initial import", 0, .error "object not found", .error "object not found"⟩

/-- C5 (code bug): on a commit with no parent, `PatchView` does not
surface an error result — it calls `sc.Error(w, err)` with the stale `nil`
error from the successful commit lookup, and `Error`'s `err.Error()` call
dereferences the nil interface: the handler panics. -/
theorem patchView_zero_parent_nil_panic :
    renderPatchEnvelope rootCommit = .nilPanic ∧
    PatchView [("proj", "/srv/proj")] "proj" "0123abc" (some rootCommit) = .nilPanic := by
  constructor
  · rfl
  · decide

/-- A missing lookup yields no handle. -/
theorem findRepo_none_of_not_found (m : RegMap) (s : String)
    (h : (FindRepo m s).2 = false) : (FindRepo m s).1 = none := by
  cases hf : List.find? (fun p => p.1 == s) m with
  | none => simp [FindRepo, hf]
  | some p => simp [FindRepo, hf] at h

/-- C8 counterexample: a Smart HTTP request for a repository that is not
in the registry is not answered with a 404 — `getInfoRefs` ignores the
lookup flag, responds 200 with a full advertisement preamble, and spawns
git on the zero-value empty path; `uploadPack` and `receivePack` behave
the same way. -/
theorem smartHttp_unknown_repo_no_404 :
    (FindRepo [] "project").2 = false ∧
    (getInfoRefs [] "project" "git-upload-pack").status = 200 ∧
    ¬ (getInfoRefs [] "project" "git-upload-pack").status = 404 ∧
    (getInfoRefs [] "project" "git-upload-pack").gitArgs =
      ["upload-pack", "--stateless-rpc", "--advertise-refs", ""] ∧
    (uploadPack [] "project" "body").status = 200 ∧
    (receivePack [] "project" "body").status = 200 := by
  decide

/-- C8 amended: browsing endpoints (here `PatchView`) answer an unknown
repository with a rendered 404 error page, but the three Smart HTTP
endpoints discard the lookup flag (`repo, _ := sc.FindRepo(...)`): they
keep status 200 and hand the zero-value empty repository path to the git
subprocess. -/
theorem smartHttp_unknown_repo_behaviour (registry : RegMap)
    (repoName service body commitID : String) (c : Option CommitInfo)
    (h : (FindRepo registry repoName).2 = false) :
    PatchView registry repoName commitID c =
      .page "error" (some 404) (some "Repository not found") ∧
    (getInfoRefs registry repoName service).status = 200 ∧
    (getInfoRefs registry repoName service).gitArgs =
      [stripGitDash service, "--stateless-rpc", "--advertise-refs", ""] ∧
    (uploadPack registry repoName body).status = 200 ∧
    (uploadPack registry repoName body).gitArgs =
      ["upload-pack", "--stateless-rpc", ""] ∧
    (receivePack registry repoName body).status = 200 ∧
    (receivePack registry repoName body).gitArgs =
      ["receive-pack", "--stateless-rpc", ""] := by
  have hnone := findRepo_none_of_not_found registry repoName h
  refine ⟨?_, rfl, ?_, rfl, ?_, rfl, ?_⟩
  · unfold PatchView
    rw [if_pos h]
  · simp [getInfoRefs, hnone]
  · simp [uploadPack, hnone]
  · simp [receivePack, hnone]

/-- Witness for C8 (amended) at a registry holding one repository and a
request for a different name. -/
theorem smartHttp_unknown_repo_behaviour_witness :
    (FindRepo [("repo1", "/srv/repo1")] "missing").2 = false ∧
    PatchView [("repo1", "/srv/repo1")] "missing" "abc" none =
      .page "error" (some 404) (some "Repository not found") ∧
    (getInfoRefs [("repo1", "/srv/repo1")] "missing" "git-upload-pack").status = 200 ∧
    (getInfoRefs [("repo1", "/srv/repo1")] "missing" "git-upload-pack").gitArgs =
      [stripGitDash "git-upload-pack", "--stateless-rpc", "--advertise-refs", ""] := by
  have h := smartHttp_unknown_repo_behaviour [("repo1", "/srv/repo1")]
    "missing" "git-upload-pack" "body" "abc" none (by decide)
  exact ⟨by decide, h.1, h.2.1, h.2.2.1⟩

/-- An entry of a git tree: its name and the hash of the blob it points
to (content identity). -/
structure TreeEntry where
  name : String
  hash : Nat
  deriving DecidableEq

/-- A git tree as `GetChanges` consumes it. -/
abbrev Tree := List TreeEntry

/-- One change of a diff: the from-side and to-side paths; an absent side
is the zero-value empty `ChangeEntry` of go-git, modelled as `none`. -/
structure Change where
  fromPath : Option String
  toPath : Option String
  deriving DecidableEq

/-- Name lookup in a tree. -/
def lookupEntry (t : Tree) (name : String) : Option Nat :=
  match t.find? (fun e => e.name == name) with
  | some e => some e.hash
  | none => none

/-- Modelled from go-git's `object.DiffTree` (library code, not part of
this repository): structural comparison of two trees in which a nil tree
behaves as the empty tree — entries only on the from side are deletions,
entries on both sides with different hashes are modifications, entries
only on the to side are additions. -/
def DiffTree (fromT toT : Tree) : List Change :=
  (fromT.filterMap fun e =>
    match lookupEntry toT e.name with
    | none => some ⟨some e.name, none⟩
    | some h => if h = e.hash then none else some ⟨some e.name, some e.name⟩) ++
  (toT.filterMap fun e =>
    match lookupEntry fromT e.name with
    | none => some ⟨none, some e.name⟩
    | some _ => none)

/-- A commit as `GetChanges` sees it: its own tree and its parents'
trees (`commit.Parent(0)` fails exactly when there is no parent). -/
structure CommitObj where
  tree : Tree
  parentTrees : List Tree
  deriving DecidableEq

/-- Model of `GetChanges`: when `commit.Parent(0)` fails (no parents),
`parentTree` remains nil and `object.DiffTree(nil, currentTree)` compares
against the empty tree; otherwise the first parent's tree is the base. -/
def GetChanges (c : CommitObj) : List Change :=
  match c.parentTrees.head? with
  | none => DiffTree [] c.tree
  | some pt => DiffTree pt c.tree

/-- Diffing from the empty tree marks every entry as added. -/
theorem diffTree_empty_from (t : Tree) :
    DiffTree [] t = t.map (fun e => ⟨none, some e.name⟩) := by
  induction t with
  | nil => rfl
  | cons e t ih =>
    have step : DiffTree [] (e :: t) = ⟨none, some e.name⟩ :: DiffTree [] t := rfl
    rw [step, ih]
    rfl

/-- C7: a commit with zero parents diffs against the empty tree, so
`GetChanges` succeeds and reports every entry of the commit's tree as
added — each change has an empty from side and a present to side. -/
theorem getChanges_root_commit (c : CommitObj) (h : c.parentTrees = []) :
    GetChanges c = c.tree.map (fun e => ⟨none, some e.name⟩) ∧
    ∀ ch ∈ GetChanges c, ch.fromPath = none ∧ ch.toPath ≠ none := by
  have h1 : GetChanges c = DiffTree [] c.tree := by
    rw [GetChanges, h]
    rfl
  rw [h1, diffTree_empty_from]
  refine ⟨rfl, ?_⟩
  intro ch hch
  obtain ⟨e, _, rfl⟩ := List.mem_map.mp hch
  exact ⟨rfl, by simp⟩

/-- Witness for C7: a two-file root commit yields exactly two additions. -/
theorem getChanges_root_commit_witness :
    GetChanges ⟨[⟨"a.txt", 1⟩, ⟨"b.txt", 2⟩], []⟩ =
      [⟨none, some "a.txt"⟩, ⟨none, some "b.txt"⟩] := by
  have h := getChanges_root_commit ⟨[⟨"a.txt", 1⟩, ⟨"b.txt", 2⟩], []⟩ rfl
  rw [h.1]
  rfl

/-- One result of the commit iterator's `Next` in `LogView`: a commit, the
`io.EOF` sentinel, or any other error — for which go-git returns a nil
commit pointer alongside the error. -/
inductive NextResult
  | ok (message : String) (hash : String)
  | eof
  | err
  deriving DecidableEq

/-- A rendered log entry: the subject (`lines[0]` of the message) and the
eight-character short hash. -/
structure LogEntry where
  subject : String
  shortHash : String
  deriving DecidableEq

/-- Outcome of the `LogView` page loop: a page of commits, or the panic
from dereferencing the nil commit (`commit.Message` with `commit == nil`)
returned alongside a non-EOF error. -/
inductive LogOutcome
  | page (entries : List LogEntry)
  | nilPanic
  deriving DecidableEq

/-- The page cap, `PAGE_SIZE int = 500` in the source. -/
def PAGE_SIZE : Nat := 500

/-- Go `strings.Split(message, "\n")[0]`: the text before the first
newline. -/
def headline (message : String) : String :=
  ⟨message.data.takeWhile (fun c => c ≠ '\n')⟩

/-- Go `commit.Hash.String()[:8]` (hash strings are 40 hex characters). -/
def shortHashOf (hash : String) : String := ⟨hash.data.take 8⟩

/-- The loop `for i := 1; i <= PAGE_SIZE; i++` of `LogView`: each
iteration takes the next iterator result; `io.EOF` breaks; a commit is
appended to the page; any other error reaches `commit.Message` on the nil
commit. An exhausted stream stands for an iterator that keeps returning
`io.EOF`. -/
def logLoop : Nat → List NextResult → List LogEntry → LogOutcome
  | 0, _, acc => .page acc.reverse
  | _ + 1, [], acc => .page acc.reverse
  | n + 1, r :: rest, acc =>
    match r with
    | .eof => .page acc.reverse
    | .err => .nilPanic
    | .ok message hash =>
      logLoop n rest (⟨headline message, shortHashOf hash⟩ :: acc)

/-- Model of `LogView`'s commit collection once the revision resolved and
the log iterator was obtained. -/
def LogView (results : List NextResult) : LogOutcome := logLoop PAGE_SIZE results []

/-- A non-EOF error reached within the fuel makes the loop panic. -/
theorem logLoop_panic :
    ∀ (pre : List NextResult) (n : Nat) (acc : List LogEntry) (rest : List NextResult),
      pre.length < n → (∀ r ∈ pre, ∃ m h, r = NextResult.ok m h) →
      logLoop n (pre ++ NextResult.err :: rest) acc = .nilPanic := by
  intro pre
  induction pre with
  | nil =>
    intro n acc rest hn _
    cases n with
    | zero => omega
    | succ n => rfl
  | cons r pre ih =>
    intro n acc rest hn hok
    obtain ⟨m, hh, rfl⟩ := hok r (List.mem_cons_self _ _)
    cases n with
    | zero => omega
    | succ n =>
      exact ih n (⟨headline m, shortHashOf hh⟩ :: acc) rest
        (by simp at hn; omega)
        (fun x hx => hok x (List.mem_cons_of_mem _ hx))

/-- An error-free window of results produces a page. -/
theorem logLoop_page :
    ∀ (n : Nat) (results : List NextResult) (acc : List LogEntry),
      (∀ r ∈ results.take n, r ≠ NextResult.err) →
      ∃ entries, logLoop n results acc = .page entries := by
  intro n
  induction n with
  | zero => intro results acc _; exact ⟨acc.reverse, rfl⟩
  | succ n ih =>
    intro results acc hok
    cases results with
    | nil => exact ⟨acc.reverse, rfl⟩
    | cons r rest =>
      cases r with
      | eof => exact ⟨acc.reverse, rfl⟩
      | err =>
        exact absurd (show NextResult.err ∈ (NextResult.err :: rest).take (n + 1) by
          simp [List.take_cons]) (fun hmem => hok _ hmem rfl)
      | ok m hh =>
        exact ih rest (⟨headline m, shortHashOf hh⟩ :: acc)
          (fun x hx => hok x (by simp [List.take_cons]; exact Or.inr hx))

/-- C10: the page loop of `LogView` handles only `io.EOF`; if `Next`
fails with any other error within the 500-commit page, the handler
dereferences the nil commit and panics, so commit listing is well-defined
(a page is produced) exactly when iteration does not fail before the page
ends. -/
theorem logView_error_handling :
    (∀ (pre rest : List NextResult), pre.length < PAGE_SIZE →
      (∀ r ∈ pre, ∃ m h, r = NextResult.ok m h) →
      LogView (pre ++ NextResult.err :: rest) = .nilPanic) ∧
    (∀ results : List NextResult, (∀ r ∈ results.take PAGE_SIZE, r ≠ NextResult.err) →
      ∃ entries, LogView results = .page entries) :=
  ⟨fun pre rest h1 h2 => logLoop_panic pre PAGE_SIZE [] rest h1 h2,
   fun results h => logLoop_page PAGE_SIZE results [] h⟩

/-- Witness for C10: a page whose second `Next` fails panics; the same
page ending in `io.EOF` renders one entry with subject and short hash. -/
theorem logView_error_handling_witness :
    LogView [.ok "first commit\nbody" "0123456789abcdef0123456789abcdef01234567", .err] =
      .nilPanic ∧
    LogView [.ok "first commit\nbody" "0123456789abcdef0123456789abcdef01234567", .eof] =
      .page [⟨"first commit", "01234567"⟩] := by
  constructor
  · exact logView_error_handling.1
      [.ok "first commit\nbody" "0123456789abcdef0123456789abcdef01234567"] []
      (by decide)
      (fun r hr => by
        rcases List.mem_singleton.mp hr with rfl
        exact ⟨_, _, rfl⟩)
  · decide

end Smithy
